import Mathlib

/-!
# Verification of the speck ribbon-curve generator (`speck/draw.py`)

Shallow embedding of the numerical core of `SpeckPlot`: the horizontal
sample axis `_x`, the per-row ribbon curve generator `_y` (clipping,
rescaling, per-boundary logistic blending, head/tail padding, mirroring),
the `inter` interpolation density chosen in the constructor, and the
memoisation layer manipulated by `cache_clear`.

Grayscale intensities are natural numbers (uint8 values 0..255); all
floating-point arithmetic is modelled over `ℝ`.  A numpy operation that
raises on an empty array is modelled with `Option`.
-/

namespace Speck

/-- `np.repeat(xs, n)`: every element repeated `n` times, in place. -/
def nrepeat {α : Type} (xs : List α) (n : ℕ) : List α :=
  xs.flatMap (fun a => List.replicate n a)

/-- Elementwise combination of four equal-length vectors (numpy broadcasting
of a scalar expression over four arrays). -/
def zip4With {α : Type} (f : α → α → α → α → α) : List α → List α → List α → List α → List α
  | x :: xs, y :: ys, z :: zs, w :: ws => f x y z w :: zip4With f xs ys zs ws
  | _, _, _, _ => []

/-- The helper `repeat_head_tail(arr, n)` of `_y` (draw.py lines 163-174).
`np.insert(arr, 0, ones(n//2)*arr[0])` prepends `n//2` copies of the head;
`np.insert(-, -1, ones(n//2)*arr[-1])` inserts `n//2` copies of the last
value *before* the final element; when `n` is odd the last point is appended
once more.  On an empty array the indexing `arr[0]` raises `IndexError`,
modelled by `none`. -/
def repeat_head_tail {α : Type} : List α → ℕ → Option (List α)
  | [], _ => none
  | a :: rest, n =>
    let arr := a :: rest
    let lastv := arr.getLast (List.cons_ne_nil a rest)
    let c := List.replicate (n / 2) a ++ arr.dropLast ++ List.replicate (n / 2 + 1) lastv
    some (if n % 2 = 1 then c ++ [lastv] else c)

/-- Position in the unpadded array that position `j` of
`repeat_head_tail arr n` comes from (`len` is the unpadded length). -/
def rhtIndex (len n j : ℕ) : ℕ :=
  if j < n / 2 then 0 else min (j - n / 2) (len - 1)

/-- `np.linspace a b num`: `num` evenly spaced points from `a` to `b`
inclusive (`[a]` when `num = 1`, empty when `num = 0`). -/
noncomputable def linspace (a b : ℝ) (num : ℕ) : List ℝ :=
  if num = 1 then [a]
  else List.map (fun j : ℕ => a + (j : ℝ) * (b - a) / ((num : ℝ) - 1)) (List.range num)

/-- Width `self.w` of the image: length of a row of `self.im`
(`np.array` of a PIL grayscale image is rectangular). -/
def imWidth (im : List (List ℕ)) : ℕ := (im.headD []).length

/-- `clip_min = (1 - weight_clipping[1]) * 255.0` (draw.py line 160). -/
noncomputable def clipMinOf (wc : ℝ × ℝ) : ℝ := (1 - wc.2) * 255

/-- `clip_max = (1 - weight_clipping[0]) * 255.0` (draw.py line 161). -/
noncomputable def clipMaxOf (wc : ℝ × ℝ) : ℝ := (1 - wc.1) * 255

/-- `y_min = weights[0] / 2 + 0.5` (draw.py line 158). -/
noncomputable def yMinOf (weights : ℝ × ℝ) : ℝ := weights.1 / 2 + 0.5

/-- `y_max = weights[1] / 2 + 0.5` (draw.py line 159). -/
noncomputable def yMaxOf (weights : ℝ × ℝ) : ℝ := weights.2 / 2 + 0.5

/-- Clip-and-rescale of one intensity value (draw.py lines 182-184):
`(v.clip(clip_min, clip_max) - clip_min) * 255 / (clip_max - clip_min)`.
`np.clip` computes `min (max v lo) hi`. -/
noncomputable def rescaleVal (wc : ℝ × ℝ) (v : ℝ) : ℝ :=
  (min (max v (clipMinOf wc)) (clipMaxOf wc) - clipMinOf wc) * 255
    / (clipMaxOf wc - clipMinOf wc)

/-- Per-pixel top-curve offset `y_max - line * (y_max - y_min) / 255`
(draw.py lines 186 and 188), applied to a rescaled intensity `r`. -/
noncomputable def lineOffset (weights : ℝ × ℝ) (r : ℝ) : ℝ :=
  yMaxOf weights - r * (yMaxOf weights - yMinOf weights) / 255

/-- `_x` (draw.py lines 147-149): `np.linspace(0, self.w, self.w * self.inter)`. -/
noncomputable def sampleX (w inter : ℕ) : List ℝ :=
  linspace 0 (w : ℝ) (w * inter)

/-- The variable `line` after clipping and rescaling (draw.py lines 182-184). -/
noncomputable def lineOf (wc : ℝ × ℝ) (row : List ℕ) : List ℝ :=
  List.map (fun v : ℕ => rescaleVal wc (v : ℝ)) row

/-- The unpadded `y_offset` array (draw.py line 186):
`np.repeat(y_max - line[:-1] * (y_max - y_min) / 255, self.inter)`. -/
noncomputable def yOffsetArr (weights wc : ℝ × ℝ) (inter : ℕ) (row : List ℕ) : List ℝ :=
  nrepeat ((lineOf wc row).dropLast.map (lineOffset weights)) inter

/-- The unpadded `L` array (draw.py lines 187-190):
`np.repeat(y_max - line[1:] * (y_max - y_min) / 255, self.inter) - y_offset`. -/
noncomputable def lArr (weights wc : ℝ × ℝ) (inter : ℕ) (row : List ℕ) : List ℝ :=
  List.zipWith (fun u v => u - v)
    (nrepeat (((lineOf wc row).drop 1).map (lineOffset weights)) inter)
    (yOffsetArr weights wc inter row)

/-- The unpadded `x0` array (draw.py line 192):
`np.repeat(np.arange(1, self.w), self.inter)`. -/
noncomputable def x0Arr (w inter : ℕ) : List ℝ :=
  nrepeat (List.map (fun m : ℕ => (m : ℝ)) (List.range' 1 (w - 1))) inter

/-- One sample of the top curve (draw.py lines 198-200):
`i + L / (1 + exp(-k * (x - x0))) + y_offset`. -/
noncomputable def logisticTop (k : ℝ) (i : ℕ) (x Lj x0j yoj : ℝ) : ℝ :=
  (i : ℝ) + Lj / (1 + Real.exp (-k * (x - x0j))) + yoj

/-- The body of the row loop of `_y` (draw.py lines 181-203) for row index
`i` with raw intensities `row`: clipping/rescaling, per-boundary `y_offset`,
`L` and `x0` arrays, head/tail padding, logistic blending against the sample
axis, and the mirrored bottom curve `2 * i + 1 - y_top`. -/
noncomputable def rowCurves (k : ℝ) (inter w : ℕ) (weights wc : ℝ × ℝ)
    (i : ℕ) (row : List ℕ) : Option (List ℝ × List ℝ) :=
  match repeat_head_tail (yOffsetArr weights wc inter row) inter,
      repeat_head_tail (lArr weights wc inter row) inter,
      repeat_head_tail (x0Arr w inter) inter with
  | some yo, some Lp, some x0p =>
    let y_top := zip4With (logisticTop k i) (sampleX w inter) Lp x0p yo
    some (y_top, y_top.map (fun t => 2 * (i : ℝ) + 1 - t))
  | _, _, _ => none

/-- The row loop of `_y` (draw.py lines 176-179): rows whose index `i`
satisfies `i % (skip + 1) ≠ 0` are skipped before any computation. -/
noncomputable def speckYAux (k : ℝ) (inter w : ℕ) (weights wc : ℝ × ℝ) (skip : ℕ) :
    ℕ → List (List ℕ) → Option (List (List ℝ × List ℝ))
  | _, [] => some []
  | i, row :: rest =>
    if i % (skip + 1) = 0 then
      match rowCurves k inter w weights wc i row,
          speckYAux k inter w weights wc skip (i + 1) rest with
      | some p, some ps => some (p :: ps)
      | _, _ => none
    else
      speckYAux k inter w weights wc skip (i + 1) rest

/-- `_y(weights, weight_clipping, skip)` (draw.py lines 151-205). -/
noncomputable def speckY (k : ℝ) (inter : ℕ) (im : List (List ℕ))
    (weights wc : ℝ × ℝ) (skip : ℕ) : Option (List (List ℝ × List ℝ)) :=
  speckYAux k inter (imWidth im) weights wc skip 0 im

/-- `self.inter = int(upscale) if upscale >= 10 else 10` (draw.py line 48);
`upscale` is declared `int`, so `int(upscale) = upscale`. -/
def interOf (upscale : ℤ) : ℤ := if 10 ≤ upscale then upscale else 10

/-- The three memoised functions of `SpeckPlot`. -/
inductive CacheParam
  | x
  | y
  | noise

/-- The `functools.lru_cache` tables attached to `_x`, `_y` and `_noise`:
association lists from the call arguments to the cached result.  `_x` takes
no argument; `_y` is keyed by `(weights, weight_clipping, skip)`; `_noise`
is keyed by the identity of the noise generator. -/
structure SpeckCaches where
  xCache : List (Unit × List ℝ)
  yCache : List ((((ℝ × ℝ) × (ℝ × ℝ) × ℕ)) × Option (List (List ℝ × List ℝ)))
  noiseCache : List (ℕ × List (ℝ × ℝ))

/-- `cache_clear(parameter)` (draw.py lines 128-134): with a parameter name
only that function's cache is cleared; with `None` all three are cleared. -/
def cache_clear (p : Option CacheParam) (s : SpeckCaches) : SpeckCaches :=
  match p with
  | some CacheParam.x => ⟨[], s.yCache, s.noiseCache⟩
  | some CacheParam.y => ⟨s.xCache, [], s.noiseCache⟩
  | some CacheParam.noise => ⟨s.xCache, s.yCache, []⟩
  | none => ⟨[], [], []⟩

/-- Lookup in a cache table. -/
def lookupC {κ ν : Type} [DecidableEq κ] : List (κ × ν) → κ → Option ν
  | [], _ => none
  | (key, v) :: rest, a => if key = a then some v else lookupC rest a

/-- The `functools.lru_cache` call discipline: a hit returns the cached
value without recomputation (flag `false`); a miss computes, stores and
returns the value (flag `true`). -/
def callCached {κ ν : Type} [DecidableEq κ] (f : κ → ν) (cache : List (κ × ν)) (a : κ) :
    ν × List (κ × ν) × Bool :=
  match lookupC cache a with
  | some v => (v, cache, false)
  | none => (f a, cache ++ [(a, f a)], true)

/-! ## Basic facts about the embedded numpy operations -/

theorem nrepeat_length {α : Type} (xs : List α) (n : ℕ) :
    (nrepeat xs n).length = xs.length * n := by
  induction xs with
  | nil => simp [nrepeat]
  | cons a l ih =>
    simp only [nrepeat, List.flatMap_cons, List.length_append,
      List.length_replicate, List.length_cons] at ih ⊢
    rw [ih, Nat.succ_mul, Nat.add_comm]

theorem getD_replicate {α : Type} {n j : ℕ} (h : j < n) (a d : α) :
    (List.replicate n a).getD j d = a := by
  rw [List.getD_eq_getElem _ _ (by simpa using h)]
  exact List.getElem_replicate _ _

theorem getD_dropLast {α : Type} (xs : List α) {j : ℕ}
    (h : j < xs.dropLast.length) (d : α) :
    xs.dropLast.getD j d = xs.getD j d := by
  have h' : j < xs.length := by
    have := xs.length_dropLast; omega
  rw [List.getD_eq_getElem _ _ h, List.getD_eq_getElem _ _ h']
  exact List.getElem_dropLast xs j h

theorem nrepeat_getD {α : Type} (xs : List α) {n j : ℕ} (d : α)
    (hj : j < xs.length * n) :
    (nrepeat xs n).getD j d = xs.getD (j / n) d := by
  induction xs generalizing j with
  | nil => simp at hj
  | cons a l ih =>
    have hn : 0 < n := by
      rcases Nat.eq_zero_or_pos n with h | h
      · rw [h, Nat.mul_zero] at hj; omega
      · exact h
    rw [show nrepeat (a :: l) n = List.replicate n a ++ nrepeat l n from rfl]
    by_cases h : j < n
    · rw [Nat.div_eq_of_lt h, List.getD_append _ _ _ _ (by simpa using h),
        getD_replicate h, List.getD_cons_zero]
    · push_neg at h
      have hj' : j - n < l.length * n := by
        simp only [List.length_cons, Nat.succ_mul] at hj; omega
      rw [List.getD_append_right _ _ _ _ (by simpa using h), List.length_replicate,
        ih hj', Nat.div_eq_sub_div hn h, List.getD_cons_succ]

theorem rht_eq {α : Type} (a : α) (rest : List α) (n : ℕ) :
    repeat_head_tail (a :: rest) n =
      some (List.replicate (n / 2) a ++ (a :: rest).dropLast ++
        List.replicate (n / 2 + 1 + n % 2)
          ((a :: rest).getLast (List.cons_ne_nil a rest))) := by
  rcases Nat.mod_two_eq_zero_or_one n with h | h <;>
    simp [repeat_head_tail, h, List.replicate_succ', List.append_assoc]

theorem rht_nil {α : Type} (n : ℕ) :
    repeat_head_tail ([] : List α) n = none := rfl

theorem rht_isSome {α : Type} {xs : List α} (h : xs ≠ []) (n : ℕ) :
    ∃ out, repeat_head_tail xs n = some out := by
  cases xs with
  | nil => exact absurd rfl h
  | cons a rest => exact ⟨_, rht_eq a rest n⟩

theorem rht_length {α : Type} {xs : List α} {n : ℕ} {out : List α}
    (h : repeat_head_tail xs n = some out) : out.length = xs.length + n := by
  cases xs with
  | nil => simp [repeat_head_tail] at h
  | cons a rest =>
    rw [rht_eq] at h
    injection h with h
    subst h
    simp only [List.length_append, List.length_replicate, List.length_dropLast,
      List.length_cons]
    omega

theorem rht_ne_nil {α : Type} {xs : List α} {n : ℕ} {out : List α}
    (h : repeat_head_tail xs n = some out) : xs ≠ [] := by
  cases xs with
  | nil => simp [repeat_head_tail] at h
  | cons a rest => exact List.cons_ne_nil a rest

theorem rhtIndex_lt {len n j : ℕ} (h : 0 < len) : rhtIndex len n j < len := by
  unfold rhtIndex
  split <;> omega

theorem rht_getD {α : Type} {xs : List α} {n : ℕ} {out : List α}
    (h : repeat_head_tail xs n = some out) {j : ℕ} (hj : j < out.length) (d : α) :
    out.getD j d = xs.getD (rhtIndex xs.length n j) d := by
  cases xs with
  | nil => simp [repeat_head_tail] at h
  | cons a rest =>
    rw [rht_eq] at h
    injection h with h
    subst h
    have hlen : (a :: rest).length = rest.length + 1 := rfl
    have hdl : (a :: rest).dropLast.length = rest.length := by
      simp [List.length_dropLast]
    rw [List.append_assoc]
    by_cases h1 : j < n / 2
    · rw [rhtIndex, if_pos h1,
        List.getD_append _ _ _ _ (by simpa using h1), getD_replicate h1,
        List.getD_cons_zero]
    · push_neg at h1
      rw [List.getD_append_right _ _ _ _ (by simpa using h1), List.length_replicate]
      by_cases h2 : j - n / 2 < rest.length
      · rw [List.getD_append _ _ _ _ (by rw [hdl]; exact h2),
          getD_dropLast _ (by rw [hdl]; exact h2), rhtIndex, if_neg (by omega)]
        congr 1
        omega
      · push_neg at h2
        rw [List.getD_append_right _ _ _ _ (by rw [hdl]; exact h2), hdl]
        have hlt : j - n / 2 - rest.length < n / 2 + 1 + n % 2 := by
          simp only [List.length_append, List.length_replicate,
            List.length_dropLast, hlen] at hj
          omega
        rw [getD_replicate hlt, rhtIndex, if_neg (by omega),
          List.getLast_eq_getElem, ← List.getD_eq_getElem _ d]
        congr 1
        simp only [hlen]
        omega

theorem zip4With_length {α : Type} (f : α → α → α → α → α) :
    ∀ (as1 bs cs ds : List α),
      (zip4With f as1 bs cs ds).length =
        min (min as1.length bs.length) (min cs.length ds.length)
  | [], bs, cs, ds => by
    simp only [show zip4With f [] bs cs ds = [] from rfl, List.length_nil]
    omega
  | a :: as1, [], cs, ds => by
    simp only [show zip4With f (a :: as1) [] cs ds = [] from rfl, List.length_nil,
      List.length_cons]
    omega
  | a :: as1, b :: bs, [], ds => by
    simp only [show zip4With f (a :: as1) (b :: bs) [] ds = [] from rfl,
      List.length_nil, List.length_cons]
    omega
  | a :: as1, b :: bs, c :: cs, [] => by
    simp only [show zip4With f (a :: as1) (b :: bs) (c :: cs) [] = [] from rfl,
      List.length_nil, List.length_cons]
    omega
  | a :: as1, b :: bs, c :: cs, d :: ds => by
    simp only [show zip4With f (a :: as1) (b :: bs) (c :: cs) (d :: ds) =
      f a b c d :: zip4With f as1 bs cs ds from rfl, List.length_cons,
      zip4With_length f as1 bs cs ds]
    omega

theorem zip4With_getD {α : Type} (f : α → α → α → α → α) (d : α) :
    ∀ (as1 bs cs ds : List α) (j : ℕ),
      j < (zip4With f as1 bs cs ds).length →
      (zip4With f as1 bs cs ds).getD j d =
        f (as1.getD j d) (bs.getD j d) (cs.getD j d) (ds.getD j d)
  | [], bs, cs, ds, j, h => by
    rw [show zip4With f [] bs cs ds = [] from rfl] at h
    simp at h
  | a :: as1, [], cs, ds, j, h => by
    rw [show zip4With f (a :: as1) [] cs ds = [] from rfl] at h
    simp at h
  | a :: as1, b :: bs, [], ds, j, h => by
    rw [show zip4With f (a :: as1) (b :: bs) [] ds = [] from rfl] at h
    simp at h
  | a :: as1, b :: bs, c :: cs, [], j, h => by
    rw [show zip4With f (a :: as1) (b :: bs) (c :: cs) [] = [] from rfl] at h
    simp at h
  | a :: as1, b :: bs, c :: cs, d' :: ds, 0, h => rfl
  | a :: as1, b :: bs, c :: cs, d' :: ds, j + 1, h => by
    rw [show zip4With f (a :: as1) (b :: bs) (c :: cs) (d' :: ds) =
      f a b c d' :: zip4With f as1 bs cs ds from rfl] at h ⊢
    simp only [List.length_cons] at h
    simp only [List.getD_cons_succ]
    exact zip4With_getD f d as1 bs cs ds j (by omega)

theorem zipWith_getD {α : Type} (f : α → α → α) (d : α) :
    ∀ (as1 bs : List α) (j : ℕ), j < as1.length → j < bs.length →
      (List.zipWith f as1 bs).getD j d = f (as1.getD j d) (bs.getD j d) := by
  intro as1 bs j h1 h2
  have hlen : j < (List.zipWith f as1 bs).length := by
    rw [List.length_zipWith]; omega
  rw [List.getD_eq_getElem _ _ hlen, List.getElem_zipWith,
    List.getD_eq_getElem _ _ h1, List.getD_eq_getElem _ _ h2]

theorem linspace_length (a b : ℝ) (num : ℕ) : (linspace a b num).length = num := by
  by_cases h : num = 1
  · subst h; simp [linspace]
  · simp only [linspace, if_neg h, List.length_map, List.length_range]

theorem sampleX_length (w inter : ℕ) : (sampleX w inter).length = w * inter :=
  linspace_length _ _ _

/-! ## Shape and value of the arrays built inside `_y` -/

theorem yOffsetArr_length (wt wc : ℝ × ℝ) (inter : ℕ) (row : List ℕ) :
    (yOffsetArr wt wc inter row).length = (row.length - 1) * inter := by
  simp [yOffsetArr, nrepeat_length, lineOf, List.length_map, List.length_dropLast]

theorem lArr_length (wt wc : ℝ × ℝ) (inter : ℕ) (row : List ℕ) :
    (lArr wt wc inter row).length = (row.length - 1) * inter := by
  simp [lArr, List.length_zipWith, nrepeat_length, yOffsetArr, lineOf,
    List.length_map, List.length_dropLast, List.length_drop]

theorem x0Arr_length (w inter : ℕ) : (x0Arr w inter).length = (w - 1) * inter := by
  simp [x0Arr, nrepeat_length, List.length_map, List.length_range']

theorem lt_of_lt_pred {t L : ℕ} (h : t < L - 1) : t < L := by omega

theorem one_add_lt_of_lt_pred {t L : ℕ} (h : t < L - 1) : 1 + t < L := by omega

theorem add_one_lt_of_lt_pred {t L : ℕ} (h : t < L - 1) : t + 1 < L := by omega

theorem getD_map' {α β : Type} (f : α → β) (l : List α) (d0 : α) (d : β) {j : ℕ}
    (h : j < l.length) : (List.map f l).getD j d = f (l.getD j d0) := by
  rw [List.getD_eq_getElem _ _ (by simpa using h), List.getElem_map,
    List.getD_eq_getElem _ _ h]

theorem getD_drop' {α : Type} (l : List α) (i : ℕ) (d : α) {j : ℕ}
    (h : i + j < l.length) : (l.drop i).getD j d = l.getD (i + j) d := by
  have h2 : j < (l.drop i).length := by rw [List.length_drop]; omega
  rw [List.getD_eq_getElem _ _ h2, List.getElem_drop, List.getD_eq_getElem _ _ h]

theorem lineOf_getD (wc : ℝ × ℝ) (row : List ℕ) (d : ℝ) {j : ℕ} (h : j < row.length) :
    (lineOf wc row).getD j d = rescaleVal wc ((row.getD j 0 : ℕ) : ℝ) := by
  simp only [lineOf]
  rw [getD_map' (fun v : ℕ => rescaleVal wc (v : ℝ)) row 0 d h]

theorem yOffsetArr_getD (wt wc : ℝ × ℝ) (inter : ℕ) (row : List ℕ) {q : ℕ}
    (hq : q < (row.length - 1) * inter) :
    (yOffsetArr wt wc inter row).getD q 0 =
      lineOffset wt (rescaleVal wc ((row.getD (q / inter) 0 : ℕ) : ℝ)) := by
  have hinter : 0 < inter := by
    rcases Nat.eq_zero_or_pos inter with h | h
    · rw [h, Nat.mul_zero] at hq; omega
    · exact h
  have hbase : ((lineOf wc row).dropLast.map (lineOffset wt)).length = row.length - 1 := by
    simp [lineOf, List.length_map, List.length_dropLast]
  have ht : q / inter < row.length - 1 := by
    rw [Nat.div_lt_iff_lt_mul hinter]; exact hq
  have hdll : (lineOf wc row).dropLast.length = row.length - 1 := by
    simp [lineOf, List.length_map, List.length_dropLast]
  rw [yOffsetArr, nrepeat_getD _ _ (by rw [hbase]; exact hq),
    getD_map' (lineOffset wt) _ 0 0 (by rw [hdll]; exact ht),
    getD_dropLast _ (by rw [hdll]; exact ht) 0,
    lineOf_getD wc row 0 (lt_of_lt_pred ht)]

theorem lArr_getD (wt wc : ℝ × ℝ) (inter : ℕ) (row : List ℕ) {q : ℕ}
    (hq : q < (row.length - 1) * inter) :
    (lArr wt wc inter row).getD q 0 =
      lineOffset wt (rescaleVal wc ((row.getD (q / inter + 1) 0 : ℕ) : ℝ)) -
        lineOffset wt (rescaleVal wc ((row.getD (q / inter) 0 : ℕ) : ℝ)) := by
  have hinter : 0 < inter := by
    rcases Nat.eq_zero_or_pos inter with h | h
    · rw [h, Nat.mul_zero] at hq; omega
    · exact h
  have hdropbase : (((lineOf wc row).drop 1).map (lineOffset wt)).length = row.length - 1 := by
    simp [lineOf, List.length_map, List.length_drop]
  have ht : q / inter < row.length - 1 := by
    rw [Nat.div_lt_iff_lt_mul hinter]; exact hq
  have hdl : ((lineOf wc row).drop 1).length = row.length - 1 := by
    simp [lineOf, List.length_map, List.length_drop]
  have hlol : (lineOf wc row).length = row.length := by
    simp [lineOf, List.length_map]
  have hfirst : (nrepeat (((lineOf wc row).drop 1).map (lineOffset wt)) inter).getD q 0 =
      lineOffset wt (rescaleVal wc ((row.getD (q / inter + 1) 0 : ℕ) : ℝ)) := by
    have hb1 : 1 + q / inter < (lineOf wc row).length := by
      rw [hlol]; exact one_add_lt_of_lt_pred ht
    have hb2 : 1 + q / inter < row.length := one_add_lt_of_lt_pred ht
    rw [nrepeat_getD _ _ (by rw [hdropbase]; exact hq),
      getD_map' (lineOffset wt) _ 0 0 (by rw [hdl]; exact ht),
      getD_drop' _ 1 0 hb1,
      lineOf_getD wc row 0 hb2, Nat.add_comm 1 (q / inter)]
  rw [lArr, zipWith_getD _ _ _ _ q
      (by rw [nrepeat_length, hdropbase]; exact hq)
      (by rw [yOffsetArr_length]; exact hq),
    hfirst, yOffsetArr_getD wt wc inter row hq]

/-! ## Structure of `rowCurves` -/

theorem rowCurves_some_elim {k : ℝ} {inter w : ℕ} {wt wc : ℝ × ℝ} {i : ℕ}
    {row : List ℕ} {p : List ℝ × List ℝ}
    (hp : rowCurves k inter w wt wc i row = some p) :
    ∃ yo Lp x0p, repeat_head_tail (yOffsetArr wt wc inter row) inter = some yo ∧
      repeat_head_tail (lArr wt wc inter row) inter = some Lp ∧
      repeat_head_tail (x0Arr w inter) inter = some x0p ∧
      p.1 = zip4With (logisticTop k i) (sampleX w inter) Lp x0p yo ∧
      p.2 = p.1.map (fun t => 2 * (i : ℝ) + 1 - t) := by
  unfold rowCurves at hp
  cases h1 : repeat_head_tail (yOffsetArr wt wc inter row) inter with
  | none =>
    rw [h1] at hp
    exact Option.noConfusion (show (none : Option (List ℝ × List ℝ)) = some p from hp)
  | some yo =>
    rw [h1] at hp
    cases h2 : repeat_head_tail (lArr wt wc inter row) inter with
    | none =>
      rw [h2] at hp
      exact Option.noConfusion (show (none : Option (List ℝ × List ℝ)) = some p from hp)
    | some Lp =>
      rw [h2] at hp
      cases h3 : repeat_head_tail (x0Arr w inter) inter with
      | none =>
        rw [h3] at hp
        exact Option.noConfusion (show (none : Option (List ℝ × List ℝ)) = some p from hp)
      | some x0p =>
        rw [h3] at hp
        have hp' : some (zip4With (logisticTop k i) (sampleX w inter) Lp x0p yo,
            (zip4With (logisticTop k i) (sampleX w inter) Lp x0p yo).map
              (fun t => 2 * (i : ℝ) + 1 - t)) = some p := hp
        obtain rfl := (Option.some_inj.mp hp').symm
        exact ⟨yo, Lp, x0p, rfl, rfl, rfl, rfl, rfl⟩

theorem rowCurves_snd {k : ℝ} {inter w : ℕ} {wt wc : ℝ × ℝ} {i : ℕ}
    {row : List ℕ} {p : List ℝ × List ℝ}
    (hp : rowCurves k inter w wt wc i row = some p) :
    p.2 = p.1.map (fun t => 2 * (i : ℝ) + 1 - t) :=
  (rowCurves_some_elim hp).choose_spec.choose_spec.choose_spec.2.2.2.2

theorem rowCurves_eq (k : ℝ) (inter w : ℕ) (wt wc : ℝ × ℝ) (i : ℕ) (row : List ℕ)
    {yo Lp x0p : List ℝ}
    (h1 : repeat_head_tail (yOffsetArr wt wc inter row) inter = some yo)
    (h2 : repeat_head_tail (lArr wt wc inter row) inter = some Lp)
    (h3 : repeat_head_tail (x0Arr w inter) inter = some x0p) :
    rowCurves k inter w wt wc i row =
      some (zip4With (logisticTop k i) (sampleX w inter) Lp x0p yo,
        (zip4With (logisticTop k i) (sampleX w inter) Lp x0p yo).map
          (fun t => 2 * (i : ℝ) + 1 - t)) := by
  unfold rowCurves
  rw [h1, h2, h3]

theorem pred_mul_add (w inter : ℕ) (hw : 1 ≤ w) :
    (w - 1) * inter + inter = w * inter := by
  obtain ⟨w', rfl⟩ : ∃ w', w = w' + 1 := ⟨w - 1, by omega⟩
  simp [Nat.succ_mul]

theorem rowCurves_total (k : ℝ) (inter w : ℕ) (wt wc : ℝ × ℝ) (i : ℕ) (row : List ℕ)
    (hrow : row.length = w) (hw : 2 ≤ w) (hinter : 1 ≤ inter) :
    ∃ p, rowCurves k inter w wt wc i row = some p := by
  have h1 : 0 < (row.length - 1) * inter := Nat.mul_pos (by omega) (by omega)
  have hx : 0 < (w - 1) * inter := Nat.mul_pos (by omega) (by omega)
  have hyne : yOffsetArr wt wc inter row ≠ [] := by
    apply List.ne_nil_of_length_pos
    rw [yOffsetArr_length]
    exact h1
  have hlne : lArr wt wc inter row ≠ [] := by
    apply List.ne_nil_of_length_pos
    rw [lArr_length]
    exact h1
  have hxne : x0Arr w inter ≠ [] := by
    apply List.ne_nil_of_length_pos
    rw [x0Arr_length]
    exact hx
  obtain ⟨yo, hyo⟩ := rht_isSome hyne inter
  obtain ⟨Lp, hLp⟩ := rht_isSome hlne inter
  obtain ⟨x0p, hx0p⟩ := rht_isSome hxne inter
  exact ⟨_, rowCurves_eq k inter w wt wc i row hyo hLp hx0p⟩

theorem rowCurves_length {k : ℝ} {inter w : ℕ} {wt wc : ℝ × ℝ} {i : ℕ}
    {row : List ℕ} {p : List ℝ × List ℝ}
    (hp : rowCurves k inter w wt wc i row = some p)
    (hrow : row.length = w) (hw : 1 ≤ w) :
    p.1.length = w * inter ∧ p.2.length = w * inter := by
  obtain ⟨yo, Lp, x0p, h1, h2, h3, hfst, hsnd⟩ := rowCurves_some_elim hp
  have hfl : p.1.length = w * inter := by
    rw [hfst, zip4With_length, sampleX_length, rht_length h1, rht_length h2,
      rht_length h3, yOffsetArr_length, lArr_length, x0Arr_length, hrow,
      pred_mul_add w inter hw]
    simp
  exact ⟨hfl, by rw [hsnd, List.length_map, hfl]⟩

theorem rowCurves_getD {k : ℝ} {inter w : ℕ} {wt wc : ℝ × ℝ} {i : ℕ}
    {row : List ℕ} {p : List ℝ × List ℝ}
    (hp : rowCurves k inter w wt wc i row = some p)
    {j : ℕ} (hj : j < p.1.length) :
    ∃ q : ℕ, q + 1 < row.length ∧ ∃ E : ℝ, 0 < E ∧
      p.1.getD j 0 = (i : ℝ) +
        (lineOffset wt (rescaleVal wc ((row.getD (q + 1) 0 : ℕ) : ℝ)) -
          lineOffset wt (rescaleVal wc ((row.getD q 0 : ℕ) : ℝ))) / (1 + E) +
        lineOffset wt (rescaleVal wc ((row.getD q 0 : ℕ) : ℝ)) := by
  obtain ⟨yo, Lp, x0p, h1, h2, h3, hfst, hsnd⟩ := rowCurves_some_elim hp
  have hbase : (yOffsetArr wt wc inter row).length = (row.length - 1) * inter :=
    yOffsetArr_length wt wc inter row
  have hbaseL : (lArr wt wc inter row).length = (row.length - 1) * inter :=
    lArr_length wt wc inter row
  have hbpos : 0 < (row.length - 1) * inter := by
    have hne := rht_ne_nil h1
    have := List.length_pos.mpr hne
    omega
  have hinter : 0 < inter := by
    rcases Nat.eq_zero_or_pos inter with h | h
    · rw [h, Nat.mul_zero] at hbpos; omega
    · exact h
  have hrow1 : 0 < row.length - 1 := by
    rcases Nat.eq_zero_or_pos (row.length - 1) with h | h
    · rw [h, Nat.zero_mul] at hbpos; omega
    · exact h
  have hjlen : j < (zip4With (logisticTop k i) (sampleX w inter) Lp x0p yo).length := by
    rw [← hfst]; exact hj
  have hj4 := hjlen
  rw [zip4With_length] at hj4
  have hjLp : j < Lp.length := by omega
  have hjyo : j < yo.length := by omega
  have hval : p.1.getD j 0 =
      logisticTop k i ((sampleX w inter).getD j 0) (Lp.getD j 0) (x0p.getD j 0)
        (yo.getD j 0) := by
    rw [hfst]
    exact zip4With_getD _ _ _ _ _ _ j hjlen
  have hyoval : yo.getD j 0 =
      (yOffsetArr wt wc inter row).getD (rhtIndex ((row.length - 1) * inter) inter j) 0 := by
    rw [rht_getD h1 hjyo, hbase]
  have hLval : Lp.getD j 0 =
      (lArr wt wc inter row).getD (rhtIndex ((row.length - 1) * inter) inter j) 0 := by
    rw [rht_getD h2 hjLp, hbaseL]
  have hqilt : rhtIndex ((row.length - 1) * inter) inter j < (row.length - 1) * inter :=
    rhtIndex_lt hbpos
  have hdiv : rhtIndex ((row.length - 1) * inter) inter j / inter < row.length - 1 :=
    (Nat.div_lt_iff_lt_mul hinter).mpr hqilt
  refine ⟨rhtIndex ((row.length - 1) * inter) inter j / inter,
    add_one_lt_of_lt_pred hdiv,
    Real.exp (-k * ((sampleX w inter).getD j 0 - x0p.getD j 0)),
    Real.exp_pos _, ?_⟩
  rw [hval, logisticTop, hyoval, hLval, yOffsetArr_getD wt wc inter row hqilt,
    lArr_getD wt wc inter row hqilt]

theorem rowCurves_short {k : ℝ} {inter w : ℕ} {wt wc : ℝ × ℝ} {i : ℕ} {row : List ℕ}
    (hrow : row.length ≤ 1) : rowCurves k inter w wt wc i row = none := by
  have hnil : yOffsetArr wt wc inter row = [] := by
    apply List.length_eq_zero.mp
    rw [yOffsetArr_length, show row.length - 1 = 0 from by omega, Nat.zero_mul]
  unfold rowCurves
  rw [hnil, rht_nil]

/-! ## The row loop of `_y` -/

theorem speckYAux_eq {k : ℝ} {inter w : ℕ} {wt wc : ℝ × ℝ} {s : ℕ} :
    ∀ (rows : List (List ℕ)) (i : ℕ) (ys : List (List ℝ × List ℝ)),
      speckYAux k inter w wt wc s i rows = some ys →
      ys = ((List.range rows.length).filter (fun m => (i + m) % (s + 1) = 0)).map
          (fun m => (rowCurves k inter w wt wc (i + m) (rows.getD m [])).getD ([], [])) ∧
      ∀ m ∈ (List.range rows.length).filter (fun m => (i + m) % (s + 1) = 0),
        (rowCurves k inter w wt wc (i + m) (rows.getD m [])).isSome = true
  | [], i, ys, h => by
    have h' : some ([] : List (List ℝ × List ℝ)) = some ys := h
    obtain rfl := (Option.some_inj.mp h').symm
    simp
  | row :: rest, i, ys, h => by
    have epred : ((fun m => decide ((i + m) % (s + 1) = 0)) ∘ Nat.succ)
        = (fun m => decide (((i + 1) + m) % (s + 1) = 0)) := by
      funext m
      simp only [Function.comp_apply]
      rw [show i + Nat.succ m = i + 1 + m from by omega]
    have efun : ((fun m => (rowCurves k inter w wt wc (i + m)
          ((row :: rest).getD m [])).getD ([], [])) ∘ Nat.succ)
        = (fun m => (rowCurves k inter w wt wc ((i + 1) + m)
          (rest.getD m [])).getD ([], [])) := by
      funext m
      simp only [Function.comp_apply, List.getD_cons_succ]
      rw [show i + Nat.succ m = i + 1 + m from by omega]
    by_cases hc : i % (s + 1) = 0
    · unfold speckYAux at h
      rw [if_pos hc] at h
      cases hr : rowCurves k inter w wt wc i row with
      | none =>
        rw [hr] at h
        exact Option.noConfusion (show (none : Option (List (List ℝ × List ℝ))) = some ys from h)
      | some p =>
        rw [hr] at h
        cases ha : speckYAux k inter w wt wc s (i + 1) rest with
        | none =>
          rw [ha] at h
          exact Option.noConfusion
            (show (none : Option (List (List ℝ × List ℝ))) = some ys from h)
        | some ps =>
          rw [ha] at h
          have h' : some (p :: ps) = some ys := h
          obtain rfl := (Option.some_inj.mp h').symm
          obtain ⟨ih1, ih2⟩ := speckYAux_eq rest (i + 1) ps ha
          constructor
          · rw [List.length_cons, List.range_succ_eq_map, List.filter_cons,
              if_pos (show ((fun m => decide ((i + m) % (s + 1) = 0)) 0) = true
                by simp [hc]),
              List.filter_map, List.map_cons, List.map_map, epred, efun, ← ih1]
            simp [hr]
          · intro m hm
            rw [List.mem_filter, List.mem_range] at hm
            obtain ⟨hmlt, hmp⟩ := hm
            simp only [List.length_cons] at hmlt
            cases m with
            | zero => simp [hr]
            | succ m' =>
              have hmem : m' ∈ (List.range rest.length).filter
                  (fun m => ((i + 1) + m) % (s + 1) = 0) := by
                rw [List.mem_filter, List.mem_range]
                refine ⟨by omega, ?_⟩
                rw [show i + 1 + m' = i + Nat.succ m' from by omega]
                simpa using hmp
              have := ih2 m' hmem
              simp only [List.getD_cons_succ]
              rw [show i + Nat.succ m' = i + 1 + m' from by omega]
              exact this
    · unfold speckYAux at h
      rw [if_neg hc] at h
      obtain ⟨ih1, ih2⟩ := speckYAux_eq rest (i + 1) ys h
      constructor
      · rw [List.length_cons, List.range_succ_eq_map, List.filter_cons,
          if_neg (show ¬ ((fun m => decide ((i + m) % (s + 1) = 0)) 0) = true
            by simp [hc]),
          List.filter_map, List.map_map, epred, efun, ← ih1]
      · intro m hm
        rw [List.mem_filter, List.mem_range] at hm
        obtain ⟨hmlt, hmp⟩ := hm
        simp only [List.length_cons] at hmlt
        cases m with
        | zero =>
          exfalso
          apply hc
          simpa using hmp
        | succ m' =>
          have hmem : m' ∈ (List.range rest.length).filter
              (fun m => ((i + 1) + m) % (s + 1) = 0) := by
            rw [List.mem_filter, List.mem_range]
            refine ⟨by omega, ?_⟩
            rw [show i + 1 + m' = i + Nat.succ m' from by omega]
            simpa using hmp
          have := ih2 m' hmem
          simp only [List.getD_cons_succ]
          rw [show i + Nat.succ m' = i + 1 + m' from by omega]
          exact this

theorem speckYAux_total {k : ℝ} {inter w : ℕ} {wt wc : ℝ × ℝ} {s : ℕ}
    (hw : 2 ≤ w) (hinter : 1 ≤ inter) :
    ∀ (rows : List (List ℕ)) (i : ℕ), (∀ r ∈ rows, r.length = w) →
      ∃ ys, speckYAux k inter w wt wc s i rows = some ys
  | [], _, _ => ⟨[], rfl⟩
  | row :: rest, i, hr => by
    obtain ⟨ys', hys'⟩ := speckYAux_total hw hinter rest (i + 1)
      (fun r h => hr r (List.mem_cons_of_mem _ h))
    obtain ⟨p, hp⟩ := rowCurves_total k inter w wt wc i row
      (hr row (List.mem_cons_self _ _)) hw hinter
    by_cases hc : i % (s + 1) = 0
    · refine ⟨p :: ys', ?_⟩
      unfold speckYAux
      rw [if_pos hc, hp, hys']
    · refine ⟨ys', ?_⟩
      unfold speckYAux
      rw [if_neg hc]
      exact hys'

/-- Auxiliary division facts for the retained-row count. -/
theorem div_aux_one (s q r : ℕ) (hr : r + 1 < s + 1) :
    ((s + 1) * q + (r + 1) + 1 + s) / (s + 1) = q + 1 := by
  rw [show (s + 1) * q + (r + 1) + 1 + s = (s + 1) * (q + 1) + (r + 1) from by ring,
    Nat.mul_add_div (Nat.succ_pos s), Nat.div_eq_of_lt hr, Nat.add_zero]

theorem div_aux_two (s q r : ℕ) (hr : r + 1 < s + 1) :
    ((s + 1) * q + (r + 1) + s) / (s + 1) = q + 1 := by
  rw [show (s + 1) * q + (r + 1) + s = (s + 1) * (q + 1) + r from by ring,
    Nat.mul_add_div (Nat.succ_pos s), Nat.div_eq_of_lt (by omega : r < s + 1),
    Nat.add_zero]

/-- The retained row indices in `List.range H` are exactly the multiples of
`s + 1` below `H`, of which there are `⌈H / (s + 1)⌉ = (H + s) / (s + 1)`. -/
theorem filter_range_mod (s : ℕ) :
    ∀ H : ℕ, (List.range H).filter (fun m => m % (s + 1) = 0) =
      (List.range ((H + s) / (s + 1))).map (fun m => m * (s + 1))
  | 0 => by
    rw [Nat.div_eq_of_lt (by omega)]
    simp
  | H + 1 => by
    have hpos : 0 < s + 1 := Nat.succ_pos s
    rw [List.range_succ, List.filter_append, filter_range_mod s H]
    by_cases h : H % (s + 1) = 0
    · obtain ⟨q, rfl⟩ := Nat.dvd_of_mod_eq_zero h
      have hd : ((s + 1) * q + 1 + s) / (s + 1) = ((s + 1) * q + s) / (s + 1) + 1 := by
        rw [show (s + 1) * q + 1 + s = (s + 1) * (q + 1) from by ring,
          Nat.mul_div_cancel_left _ hpos, Nat.mul_add_div hpos,
          Nat.div_eq_of_lt (show s < s + 1 from by omega), Nat.add_zero]
      have hv : ((s + 1) * q + s) / (s + 1) * (s + 1) = (s + 1) * q := by
        rw [Nat.mul_add_div hpos, Nat.div_eq_of_lt (show s < s + 1 from by omega),
          Nat.add_zero, Nat.mul_comm q (s + 1)]
      rw [hd, List.range_succ, List.map_append]
      simp only [List.filter_cons, List.filter_nil, List.map_cons, List.map_nil]
      rw [if_pos (show ((fun m => decide (m % (s + 1) = 0)) ((s + 1) * q)) = true
        by simp [Nat.mul_mod_right]), hv]
    · obtain ⟨q, r', hH, hrlt⟩ : ∃ q r', H = (s + 1) * q + (r' + 1) ∧ r' + 1 < s + 1 := by
        have h2 : H % (s + 1) - 1 + 1 = H % (s + 1) :=
          Nat.succ_pred_eq_of_pos (Nat.pos_of_ne_zero h)
        refine ⟨H / (s + 1), H % (s + 1) - 1, ?_, ?_⟩
        · rw [h2]
          exact (Nat.div_add_mod H (s + 1)).symm
        · rw [h2]
          exact Nat.mod_lt _ hpos
      rw [hH, div_aux_one s q r' hrlt, div_aux_two s q r' hrlt]
      simp only [List.filter_cons, List.filter_nil]
      rw [if_neg (show ¬ ((fun m => decide (m % (s + 1) = 0)) ((s + 1) * q + (r' + 1))) = true
        by simp [Nat.mul_add_mod, Nat.mod_eq_of_lt hrlt])]
      simp

theorem mul_lt_of_lt_ceil {m s H : ℕ} (h : m < (H + s) / (s + 1)) :
    m * (s + 1) < H := by
  have h1 : (m + 1) * (s + 1) ≤ H + s :=
    (Nat.le_div_iff_mul_le (Nat.succ_pos s)).mp h
  have h2 : (m + 1) * (s + 1) = m * (s + 1) + s + 1 := by ring
  omega

theorem getD_map_range {β : Type} (f : ℕ → β) (N m : ℕ) (d : β) (hm : m < N) :
    ((List.range N).map f).getD m d = f m := by
  rw [getD_map' f _ 0 d (by simpa using hm)]
  congr 1
  rw [List.getD_eq_getElem _ _ (by simpa using hm)]
  simp [List.getElem_range]

/-- Closed form for `_y`: when it succeeds, entry `m` of the result is the
curve pair of row `m * (skip + 1)`, and there are `⌈H / (skip + 1)⌉` entries. -/
theorem speckY_eq {k : ℝ} {inter : ℕ} {im : List (List ℕ)} {wt wc : ℝ × ℝ} {s : ℕ}
    {ys : List (List ℝ × List ℝ)} (hy : speckY k inter im wt wc s = some ys) :
    ys = (List.range ((im.length + s) / (s + 1))).map
        (fun m => (rowCurves k inter (imWidth im) wt wc (m * (s + 1))
          (im.getD (m * (s + 1)) [])).getD ([], [])) ∧
    ∀ m, m < (im.length + s) / (s + 1) →
      (rowCurves k inter (imWidth im) wt wc (m * (s + 1))
        (im.getD (m * (s + 1)) [])).isSome = true := by
  obtain ⟨h1, h2⟩ := speckYAux_eq im 0 ys hy
  have epred : (fun m => decide ((0 + m) % (s + 1) = 0))
      = (fun m => decide (m % (s + 1) = 0)) := by
    funext m
    rw [Nat.zero_add]
  have efun : (fun m => (rowCurves k inter (imWidth im) wt wc (0 + m)
        (im.getD m [])).getD ([], []))
      = (fun m => (rowCurves k inter (imWidth im) wt wc m (im.getD m [])).getD ([], [])) := by
    funext m
    rw [Nat.zero_add]
  rw [epred] at h1 h2
  rw [efun] at h1
  rw [filter_range_mod s im.length, List.map_map] at h1
  constructor
  · rw [h1]
    apply List.map_congr_left
    intro m hm
    simp
  · intro m hm
    have hmem : m * (s + 1) ∈ (List.range im.length).filter
        (fun m => m % (s + 1) = 0) := by
      rw [List.mem_filter, List.mem_range]
      exact ⟨mul_lt_of_lt_ceil hm, by simp [Nat.mul_mod_left]⟩
    have := h2 (m * (s + 1)) hmem
    rw [show 0 + m * (s + 1) = m * (s + 1) from by omega] at this
    exact this

/-- Totality of `_y` on a rectangular image of width at least 2 with a
positive interpolation density. -/
theorem speckY_total (k : ℝ) (inter : ℕ) (im : List (List ℕ)) (wt wc : ℝ × ℝ)
    (s : ℕ) (hw : 2 ≤ imWidth im) (hinter : 1 ≤ inter)
    (hrect : ∀ r ∈ im, r.length = imWidth im) :
    ∃ ys, speckY k inter im wt wc s = some ys :=
  speckYAux_total hw hinter im 0 hrect

theorem speckY_length {k : ℝ} {inter : ℕ} {im : List (List ℕ)} {wt wc : ℝ × ℝ}
    {s : ℕ} {ys : List (List ℝ × List ℝ)} (hy : speckY k inter im wt wc s = some ys) :
    ys.length = (im.length + s) / (s + 1) := by
  rw [(speckY_eq hy).1, List.length_map, List.length_range]

theorem speckY_getD {k : ℝ} {inter : ℕ} {im : List (List ℕ)} {wt wc : ℝ × ℝ}
    {s : ℕ} {ys : List (List ℝ × List ℝ)} (hy : speckY k inter im wt wc s = some ys)
    {m : ℕ} (hm : m < ys.length) :
    ys.getD m ([], []) = (rowCurves k inter (imWidth im) wt wc (m * (s + 1))
      (im.getD (m * (s + 1)) [])).getD ([], []) := by
  conv_lhs => rw [(speckY_eq hy).1]
  exact getD_map_range _ _ _ _ (by rw [← speckY_length hy]; exact hm)

theorem speckY_pair {k : ℝ} {inter : ℕ} {im : List (List ℕ)} {wt wc : ℝ × ℝ}
    {s : ℕ} {ys : List (List ℝ × List ℝ)} (hy : speckY k inter im wt wc s = some ys)
    {m : ℕ} (hm : m < ys.length) :
    ∃ pr, rowCurves k inter (imWidth im) wt wc (m * (s + 1))
        (im.getD (m * (s + 1)) []) = some pr ∧ ys.getD m ([], []) = pr := by
  have hs := (speckY_eq hy).2 m (by rw [← speckY_length hy]; exact hm)
  obtain ⟨pr, hpr⟩ := Option.isSome_iff_exists.mp hs
  exact ⟨pr, hpr, by rw [speckY_getD hy hm, hpr, Option.getD_some]⟩

/-! ## Bounds on the rescaled intensities and curve offsets -/

theorem clipMin_lt_clipMax {wc : ℝ × ℝ} (hcd : wc.1 < wc.2) :
    clipMinOf wc < clipMaxOf wc := by
  simp only [clipMinOf, clipMaxOf]
  nlinarith [hcd]

theorem rescaleVal_nonneg {wc : ℝ × ℝ} (hcd : wc.1 < wc.2) (v : ℝ) :
    0 ≤ rescaleVal wc v := by
  have hlt := clipMin_lt_clipMax hcd
  have hclip : clipMinOf wc ≤ min (max v (clipMinOf wc)) (clipMaxOf wc) :=
    le_min (le_max_right _ _) (le_of_lt hlt)
  apply div_nonneg _ (by linarith)
  nlinarith [hclip]

theorem rescaleVal_le {wc : ℝ × ℝ} (hcd : wc.1 < wc.2) (v : ℝ) :
    rescaleVal wc v ≤ 255 := by
  have hlt := clipMin_lt_clipMax hcd
  have hclip : min (max v (clipMinOf wc)) (clipMaxOf wc) ≤ clipMaxOf wc :=
    min_le_right _ _
  rw [rescaleVal, div_le_iff₀ (by linarith)]
  nlinarith [hclip]

theorem lineOffset_mem {wt : ℝ × ℝ} {r : ℝ} (hr0 : 0 ≤ r) (hr1 : r ≤ 255)
    (hab : wt.1 ≤ wt.2) :
    yMinOf wt ≤ lineOffset wt r ∧ lineOffset wt r ≤ yMaxOf wt := by
  simp only [lineOffset, yMinOf, yMaxOf]
  constructor
  · nlinarith [mul_nonneg (by linarith : (0:ℝ) ≤ 255 - r)
      (by linarith : (0:ℝ) ≤ wt.2 - wt.1)]
  · nlinarith [mul_nonneg hr0 (by linarith : (0:ℝ) ≤ wt.2 - wt.1)]

theorem combo_bounds {lo hi A B E : ℝ} (hA1 : lo ≤ A) (hA2 : A ≤ hi)
    (hB1 : lo ≤ B) (hB2 : B ≤ hi) (hE : 0 < E) :
    lo ≤ A + (B - A) / (1 + E) ∧ A + (B - A) / (1 + E) ≤ hi := by
  have h1 : (0:ℝ) < 1 + E := by linarith
  have hq : (B - A) / (1 + E) * (1 + E) = B - A := div_mul_cancel₀ _ (ne_of_gt h1)
  rcases le_or_lt 0 ((B - A) / (1 + E)) with h | h
  · have hqE : 0 ≤ (B - A) / (1 + E) * E := mul_nonneg h (le_of_lt hE)
    constructor <;> nlinarith [hq, hqE]
  · have hqE : 0 ≤ -((B - A) / (1 + E)) * E :=
      mul_nonneg (neg_nonneg.mpr (le_of_lt h)) (le_of_lt hE)
    constructor <;> nlinarith [hq, hqE]

theorem getD_mem {α : Type} (l : List α) (d : α) {m : ℕ} (hm : m < l.length) :
    l.getD m d ∈ l := by
  rw [List.getD_eq_getElem _ _ hm]
  exact List.getElem_mem hm

theorem getD_of_all_eq {row : List ℕ} {u : ℕ} (h : ∀ v ∈ row, v = u) {q : ℕ}
    (hq : q < row.length) : row.getD q 0 = u := by
  rw [List.getD_eq_getElem _ _ hq]
  exact h _ (List.getElem_mem hq)

/-- Every sample of a top curve lies between `i + y_min` and `i + y_max`. -/
theorem top_sample_bounds {k : ℝ} {inter w : ℕ} {wt wc : ℝ × ℝ} {i : ℕ}
    {row : List ℕ} {p : List ℝ × List ℝ}
    (hp : rowCurves k inter w wt wc i row = some p)
    (hab : wt.1 ≤ wt.2) (hcd : wc.1 < wc.2)
    {j : ℕ} (hj : j < p.1.length) :
    (i : ℝ) + yMinOf wt ≤ p.1.getD j 0 ∧ p.1.getD j 0 ≤ (i : ℝ) + yMaxOf wt := by
  obtain ⟨q, hq, E, hE, hval⟩ := rowCurves_getD hp hj
  have hA := lineOffset_mem (rescaleVal_nonneg hcd ((row.getD q 0 : ℕ) : ℝ))
    (rescaleVal_le hcd ((row.getD q 0 : ℕ) : ℝ)) hab
  have hB := lineOffset_mem (rescaleVal_nonneg hcd ((row.getD (q + 1) 0 : ℕ) : ℝ))
    (rescaleVal_le hcd ((row.getD (q + 1) 0 : ℕ) : ℝ)) hab
  have hcombo := combo_bounds hA.1 hA.2 hB.1 hB.2 hE
  rw [hval]
  constructor
  · linarith [hcombo.1]
  · linarith [hcombo.2]

/-- Samples of the bottom curve are the mirror `2 * i + 1 - top`. -/
theorem snd_getD {k : ℝ} {inter w : ℕ} {wt wc : ℝ × ℝ} {i : ℕ}
    {row : List ℕ} {p : List ℝ × List ℝ}
    (hp : rowCurves k inter w wt wc i row = some p)
    {j : ℕ} (hj : j < p.1.length) :
    p.2.getD j 0 = 2 * (i : ℝ) + 1 - p.1.getD j 0 := by
  rw [rowCurves_snd hp, getD_map' (fun t => 2 * (i : ℝ) + 1 - t) _ 0 0 hj]

/-! ## Claim theorems -/

/-- C1: for every image, every weights pair, every weight-clipping pair
`(a, b)` with `a < b` and every skip value, the `(top, bottom)` pair that
`_y` produces at position `m` — the retained row index `i = m * (skip + 1)` —
satisfies `bottom(x) = 2 * i + 1 - top(x)` at every sample position `x`. -/
theorem C1_bottom_mirrors_top (k : ℝ) (inter : ℕ) (im : List (List ℕ))
    (wt wc : ℝ × ℝ) (s : ℕ) (hcd : wc.1 < wc.2)
    (ys : List (List ℝ × List ℝ)) (hy : speckY k inter im wt wc s = some ys)
    (m j : ℕ) (hm : m < ys.length) (hj : j < (ys.getD m ([], [])).1.length) :
    (ys.getD m ([], [])).2.getD j 0 =
      2 * ((m * (s + 1) : ℕ) : ℝ) + 1 - (ys.getD m ([], [])).1.getD j 0 := by
  obtain ⟨pr, hpr, hgd⟩ := speckY_pair hy hm
  rw [hgd] at hj ⊢
  exact snd_getD hpr hj

/-- C4: on an image whose intensity values are all identical, every top
curve and every bottom curve generated by `_y` is constant at every sample
position (so in particular there are no transition ramps between pixel
boundaries). -/
theorem C4_constant_image (k : ℝ) (inter : ℕ) (im : List (List ℕ))
    (wt wc : ℝ × ℝ) (s : ℕ) (u : ℕ) (hcd : wc.1 < wc.2)
    (hu : ∀ row ∈ im, ∀ v ∈ row, v = u)
    (ys : List (List ℝ × List ℝ)) (hy : speckY k inter im wt wc s = some ys)
    (m : ℕ) (hm : m < ys.length) (j1 j2 : ℕ)
    (hj1 : j1 < (ys.getD m ([], [])).1.length)
    (hj2 : j2 < (ys.getD m ([], [])).1.length) :
    (ys.getD m ([], [])).1.getD j1 0 = (ys.getD m ([], [])).1.getD j2 0 ∧
    (ys.getD m ([], [])).2.getD j1 0 = (ys.getD m ([], [])).2.getD j2 0 := by
  obtain ⟨pr, hpr, hgd⟩ := speckY_pair hy hm
  rw [hgd] at hj1 hj2 ⊢
  have hrow : ∀ v ∈ im.getD (m * (s + 1)) [], v = u := by
    intro v hv
    have hlt : m * (s + 1) < im.length := by
      apply mul_lt_of_lt_ceil
      rw [← speckY_length hy]
      exact hm
    exact hu _ (getD_mem im [] hlt) v hv
  have key : ∀ j, j < pr.1.length → pr.1.getD j 0 =
      ((m * (s + 1) : ℕ) : ℝ) + lineOffset wt (rescaleVal wc (u : ℝ)) := by
    intro j hj
    obtain ⟨q, hqlt, E, hE, hval⟩ := rowCurves_getD hpr hj
    rw [hval, getD_of_all_eq hrow (by omega), getD_of_all_eq hrow (by omega),
      sub_self, zero_div, add_zero]
  refine ⟨by rw [key j1 hj1, key j2 hj2], ?_⟩
  rw [snd_getD hpr hj1, snd_getD hpr hj2, key j1 hj1, key j2 hj2]

/-- C6: in `_y`, every intensity value is clipped into
`[clip_min, clip_max]` with `clip_min = (1 - wc.2) * 255` and
`clip_max = (1 - wc.1) * 255`, then rescaled linearly so that `clip_min`
maps to 0 and `clip_max` maps to 255; for a clipping pair `(a, b)` with
`a < b`, every rescaled value lies in `[0, 255]`. -/
theorem C6_clip_rescale (a b : ℝ) (hab : a < b) :
    clipMinOf (a, b) = (1 - b) * 255 ∧
    clipMaxOf (a, b) = (1 - a) * 255 ∧
    (∀ v : ℝ, rescaleVal (a, b) v =
      (min (max v (clipMinOf (a, b))) (clipMaxOf (a, b)) - clipMinOf (a, b)) * 255 /
        (clipMaxOf (a, b) - clipMinOf (a, b))) ∧
    rescaleVal (a, b) (clipMinOf (a, b)) = 0 ∧
    rescaleVal (a, b) (clipMaxOf (a, b)) = 255 ∧
    ∀ v : ℝ, 0 ≤ v → v ≤ 255 →
      0 ≤ rescaleVal (a, b) v ∧ rescaleVal (a, b) v ≤ 255 := by
  have hlt : clipMinOf (a, b) < clipMaxOf (a, b) := clipMin_lt_clipMax hab
  refine ⟨rfl, rfl, fun v => rfl, ?_, ?_,
    fun v h0 h255 => ⟨rescaleVal_nonneg hab v, rescaleVal_le hab v⟩⟩
  · rw [rescaleVal, max_self, min_eq_left (le_of_lt hlt), sub_self, zero_mul, zero_div]
  · rw [rescaleVal, max_eq_left (le_of_lt hlt), min_self, mul_comm, mul_div_assoc,
      div_self (ne_of_gt (sub_pos.mpr hlt)), mul_one]

/-- C7: for every skip value `s` (image rectangular of width ≥ 2), `_y`
returns exactly `⌈H / (s + 1)⌉ = (H + s) / (s + 1)` ribbon pairs, and the
pair at position `m` (row index `m * (s + 1)`) is identical to the pair
produced for that row when `skip = 0`. -/
theorem C7_skip_stride (k : ℝ) (inter : ℕ) (im : List (List ℕ)) (wt wc : ℝ × ℝ)
    (s : ℕ) (hinter : 1 ≤ inter) (hw : 2 ≤ imWidth im)
    (hrect : ∀ r ∈ im, r.length = imWidth im) :
    ∃ ys ys0, speckY k inter im wt wc s = some ys ∧
      speckY k inter im wt wc 0 = some ys0 ∧
      ys.length = (im.length + s) / (s + 1) ∧
      ys0.length = im.length ∧
      ∀ m, m < ys.length → ys.getD m ([], []) = ys0.getD (m * (s + 1)) ([], []) := by
  obtain ⟨ys, hy⟩ := speckY_total k inter im wt wc s hw hinter hrect
  obtain ⟨ys0, hy0⟩ := speckY_total k inter im wt wc 0 hw hinter hrect
  have hlen0 : ys0.length = im.length := by
    rw [speckY_length hy0]
    simp
  refine ⟨ys, ys0, hy, hy0, speckY_length hy, hlen0, ?_⟩
  intro m hm
  have hmc : m < (im.length + s) / (s + 1) := by
    rw [← speckY_length hy]
    exact hm
  have hm0 : m * (s + 1) < ys0.length := by
    rw [hlen0]
    exact mul_lt_of_lt_ceil hmc
  rw [speckY_getD hy hm, speckY_getD hy0 hm0]
  norm_num

/-- C8: clearing the cache of one of `_x`, `_y`, `_noise` empties exactly
that function's cache; the other two caches are unchanged, and a call with
a previously cached key still returns the cached value without
recomputation (recompute flag `false`). -/
theorem C8_cache_isolation (st : SpeckCaches)
    (fx : Unit → List ℝ)
    (fy : ((ℝ × ℝ) × (ℝ × ℝ) × ℕ) → Option (List (List ℝ × List ℝ)))
    (fn : ℕ → List (ℝ × ℝ))
    (vx : List ℝ) (vy : Option (List (List ℝ × List ℝ))) (vn : List (ℝ × ℝ))
    (ky : (ℝ × ℝ) × (ℝ × ℝ) × ℕ) (kn : ℕ) :
    ((cache_clear (some CacheParam.x) st).xCache = [] ∧
      (cache_clear (some CacheParam.x) st).yCache = st.yCache ∧
      (cache_clear (some CacheParam.x) st).noiseCache = st.noiseCache) ∧
    ((cache_clear (some CacheParam.y) st).yCache = [] ∧
      (cache_clear (some CacheParam.y) st).xCache = st.xCache ∧
      (cache_clear (some CacheParam.y) st).noiseCache = st.noiseCache) ∧
    ((cache_clear (some CacheParam.noise) st).noiseCache = [] ∧
      (cache_clear (some CacheParam.noise) st).xCache = st.xCache ∧
      (cache_clear (some CacheParam.noise) st).yCache = st.yCache) ∧
    (lookupC st.yCache ky = some vy →
      callCached fy (cache_clear (some CacheParam.x) st).yCache ky =
        (vy, st.yCache, false)) ∧
    (lookupC st.noiseCache kn = some vn →
      callCached fn (cache_clear (some CacheParam.x) st).noiseCache kn =
        (vn, st.noiseCache, false)) ∧
    (lookupC st.xCache () = some vx →
      callCached fx (cache_clear (some CacheParam.y) st).xCache () =
        (vx, st.xCache, false)) ∧
    (lookupC st.noiseCache kn = some vn →
      callCached fn (cache_clear (some CacheParam.y) st).noiseCache kn =
        (vn, st.noiseCache, false)) ∧
    (lookupC st.xCache () = some vx →
      callCached fx (cache_clear (some CacheParam.noise) st).xCache () =
        (vx, st.xCache, false)) ∧
    (lookupC st.yCache ky = some vy →
      callCached fy (cache_clear (some CacheParam.noise) st).yCache ky =
        (vy, st.yCache, false)) := by
  refine ⟨⟨rfl, rfl, rfl⟩, ⟨rfl, rfl, rfl⟩, ⟨rfl, rfl, rfl⟩, ?_, ?_, ?_, ?_, ?_, ?_⟩ <;>
    · intro h
      simp [callCached, cache_clear, h]

/-- C9: for a rectangular image of width `w ≥ 2`, `_y` is total (the
head/tail padding never indexes an empty array) and every top and bottom
curve has length `w * inter`, equal to the length of the sample axis
returned by `_x`; a width-1 image makes `_y` fail because the per-boundary
arrays are empty. -/
theorem C9_total_and_aligned (k : ℝ) (inter : ℕ) (im : List (List ℕ))
    (wt wc : ℝ × ℝ) (s : ℕ) (hinter : 1 ≤ inter) (hw : 2 ≤ imWidth im)
    (hrect : ∀ r ∈ im, r.length = imWidth im) :
    (∃ ys, speckY k inter im wt wc s = some ys ∧
      (sampleX (imWidth im) inter).length = imWidth im * inter ∧
      ∀ p ∈ ys, p.1.length = imWidth im * inter ∧
        p.2.length = imWidth im * inter) ∧
    ∀ im1 : List (List ℕ), im1 ≠ [] → (∀ r ∈ im1, r.length = 1) →
      speckY k inter im1 wt wc s = none := by
  constructor
  · obtain ⟨ys, hy⟩ := speckY_total k inter im wt wc s hw hinter hrect
    refine ⟨ys, hy, sampleX_length _ _, ?_⟩
    intro p hp
    obtain ⟨m, hm, hpm⟩ := List.getElem_of_mem hp
    have hgd : ys.getD m ([], []) = p := by
      rw [List.getD_eq_getElem _ _ hm, hpm]
    obtain ⟨pr, hpr, hgd2⟩ := speckY_pair hy hm
    have hlt : m * (s + 1) < im.length := by
      apply mul_lt_of_lt_ceil
      rw [← speckY_length hy]
      exact hm
    have hrowlen : (im.getD (m * (s + 1)) []).length = imWidth im :=
      hrect _ (getD_mem im [] hlt)
    have := rowCurves_length hpr hrowlen (by omega)
    rw [← hgd, hgd2]
    exact this
  · intro im1 hne hr1
    cases im1 with
    | nil => exact absurd rfl hne
    | cons row rest =>
      show speckYAux k inter (imWidth (row :: rest)) wt wc s 0 (row :: rest) = none
      unfold speckYAux
      rw [if_pos (Nat.zero_mod _),
        rowCurves_short (le_of_eq (hr1 row (List.mem_cons_self _ _)))]

/-- C10: the interpolation density `inter` equals the constructor's
`upscale` argument when `upscale ≥ 10` and equals 10 otherwise, so it never
falls below 10 and the sample axis always has `w * max upscale 10`
entries. -/
theorem C10_inter_floor (u : ℤ) (w : ℕ) :
    (10 ≤ u → interOf u = u) ∧ (u < 10 → interOf u = 10) ∧ 10 ≤ interOf u ∧
    (sampleX w (interOf u).toNat).length = w * (max u 10).toNat := by
  refine ⟨fun h => by rw [interOf, if_pos h],
    fun h => by rw [interOf, if_neg (by omega)], ?_, ?_⟩
  · rw [interOf]
    split <;> omega
  · rw [sampleX_length]
    congr 2
    rw [interOf]
    split
    · rw [max_eq_left (by omega)]
    · rw [max_eq_right (by omega)]

/-- Witness for C1 at a concrete 1×2 all-black image. -/
theorem C1_bottom_mirrors_top_witness :
    (((speckY 10 10 [[0, 0]] ((0 : ℝ), 1) ((0 : ℝ), 1) 0).getD []).getD 0
        ([], [])).2.getD 0 0 =
      2 * ((0 * (0 + 1) : ℕ) : ℝ) + 1 -
        (((speckY 10 10 [[0, 0]] ((0 : ℝ), 1) ((0 : ℝ), 1) 0).getD []).getD 0
          ([], [])).1.getD 0 0 :=
  C1_bottom_mirrors_top 10 10 [[0, 0]] (0, 1) (0, 1) 0 (by norm_num)
    ((speckY 10 10 [[0, 0]] ((0 : ℝ), 1) ((0 : ℝ), 1) 0).getD []) rfl 0 0
    (by decide) (by decide)

/-- Witness for C4 at a concrete 1×2 constant image. -/
theorem C4_constant_image_witness :
    (((speckY 10 10 [[7, 7]] ((0 : ℝ), 1) ((0 : ℝ), 1) 0).getD []).getD 0
        ([], [])).1.getD 0 0 =
      (((speckY 10 10 [[7, 7]] ((0 : ℝ), 1) ((0 : ℝ), 1) 0).getD []).getD 0
        ([], [])).1.getD 1 0 ∧
    (((speckY 10 10 [[7, 7]] ((0 : ℝ), 1) ((0 : ℝ), 1) 0).getD []).getD 0
        ([], [])).2.getD 0 0 =
      (((speckY 10 10 [[7, 7]] ((0 : ℝ), 1) ((0 : ℝ), 1) 0).getD []).getD 0
        ([], [])).2.getD 1 0 :=
  C4_constant_image 10 10 [[7, 7]] (0, 1) (0, 1) 0 7 (by norm_num) (by decide)
    ((speckY 10 10 [[7, 7]] ((0 : ℝ), 1) ((0 : ℝ), 1) 0).getD []) rfl 0
    (by decide) 0 1 (by decide) (by decide)

/-- Witness for C6 with the default clipping pair. -/
theorem C6_clip_rescale_witness :
    rescaleVal ((0 : ℝ), 1) (clipMaxOf ((0 : ℝ), 1)) = 255 ∧
    rescaleVal ((0 : ℝ), 1) (clipMinOf ((0 : ℝ), 1)) = 0 :=
  ⟨(C6_clip_rescale 0 1 (by norm_num)).2.2.2.2.1,
    (C6_clip_rescale 0 1 (by norm_num)).2.2.2.1⟩

/-- Witness for C7 on a concrete 3×2 image with skip 1. -/
theorem C7_skip_stride_witness :
    ∃ ys ys0,
      speckY 10 10 [[1, 2], [3, 4], [5, 6]] ((0 : ℝ), 1) ((0 : ℝ), 1) 1 = some ys ∧
      speckY 10 10 [[1, 2], [3, 4], [5, 6]] ((0 : ℝ), 1) ((0 : ℝ), 1) 0 = some ys0 ∧
      ys.length = ([[1, 2], [3, 4], [5, 6]] : List (List ℕ)).length / (1 + 1) + 1 ∧
      ys0.length = ([[1, 2], [3, 4], [5, 6]] : List (List ℕ)).length ∧
      ∀ m, m < ys.length → ys.getD m ([], []) = ys0.getD (m * (1 + 1)) ([], []) := by
  obtain ⟨ys, ys0, h1, h2, h3, h4, h5⟩ :=
    C7_skip_stride 10 10 [[1, 2], [3, 4], [5, 6]] (0, 1) (0, 1) 1 (by norm_num)
      (by decide) (by decide)
  exact ⟨ys, ys0, h1, h2, by rw [h3]; decide, h4, h5⟩

/-- Witness for C8 on a concrete cache state holding all three results. -/
theorem C8_cache_isolation_witness :
    (cache_clear (some CacheParam.x)
        ⟨[((), sampleX 2 10)],
          [((((0, 1), (0, 1), 0) : (ℝ × ℝ) × (ℝ × ℝ) × ℕ),
            speckY 10 10 [[0, 0]] ((0 : ℝ), 1) ((0 : ℝ), 1) 0)],
          [(5, [(1, 2)])]⟩).yCache =
      [((((0, 1), (0, 1), 0) : (ℝ × ℝ) × (ℝ × ℝ) × ℕ),
        speckY 10 10 [[0, 0]] ((0 : ℝ), 1) ((0 : ℝ), 1) 0)] ∧
    callCached (fun key : (ℝ × ℝ) × (ℝ × ℝ) × ℕ =>
        speckY 10 10 [[0, 0]] key.1 key.2.1 key.2.2)
      (cache_clear (some CacheParam.x)
        ⟨[((), sampleX 2 10)],
          [((((0, 1), (0, 1), 0) : (ℝ × ℝ) × (ℝ × ℝ) × ℕ),
            speckY 10 10 [[0, 0]] ((0 : ℝ), 1) ((0 : ℝ), 1) 0)],
          [(5, [(1, 2)])]⟩).yCache
      (((0, 1), (0, 1), 0) : (ℝ × ℝ) × (ℝ × ℝ) × ℕ) =
      (speckY 10 10 [[0, 0]] ((0 : ℝ), 1) ((0 : ℝ), 1) 0,
        [((((0, 1), (0, 1), 0) : (ℝ × ℝ) × (ℝ × ℝ) × ℕ),
          speckY 10 10 [[0, 0]] ((0 : ℝ), 1) ((0 : ℝ), 1) 0)], false) := by
  have h := C8_cache_isolation
    ⟨[((), sampleX 2 10)],
      [((((0, 1), (0, 1), 0) : (ℝ × ℝ) × (ℝ × ℝ) × ℕ),
        speckY 10 10 [[0, 0]] ((0 : ℝ), 1) ((0 : ℝ), 1) 0)],
      [(5, [(1, 2)])]⟩
    (fun _ => sampleX 2 10)
    (fun key => speckY 10 10 [[0, 0]] key.1 key.2.1 key.2.2)
    (fun _ => [(1, 2)])
    (sampleX 2 10) (speckY 10 10 [[0, 0]] ((0 : ℝ), 1) ((0 : ℝ), 1) 0) [(1, 2)]
    (((0, 1), (0, 1), 0) : (ℝ × ℝ) × (ℝ × ℝ) × ℕ) 5
  exact ⟨h.1.2.1, h.2.2.2.1 (by simp [lookupC])⟩

/-- Witness for C9: a 1×2 image succeeds with aligned lengths, a width-1
image fails. -/
theorem C9_total_and_aligned_witness :
    (∃ ys, speckY 10 10 [[3, 7]] ((0 : ℝ), 1) ((0 : ℝ), 1) 0 = some ys ∧
      (sampleX (imWidth [[3, 7]]) 10).length = imWidth [[3, 7]] * 10 ∧
      ∀ p ∈ ys, p.1.length = imWidth [[3, 7]] * 10 ∧
        p.2.length = imWidth [[3, 7]] * 10) ∧
    speckY 10 10 [[5]] ((0 : ℝ), 1) ((0 : ℝ), 1) 0 = none := by
  have h := C9_total_and_aligned 10 10 [[3, 7]] (0, 1) (0, 1) 0 (by norm_num)
    (by decide) (by decide)
  exact ⟨h.1, h.2 [[5]] (by simp) (by decide)⟩

/-- With the default clipping pair `(0, 1)` the rescale map is the identity
on `[0, 255]`. -/
theorem rescale_default (v : ℝ) (h0 : 0 ≤ v) (h255 : v ≤ 255) :
    rescaleVal ((0 : ℝ), 1) v = v := by
  have e1 : clipMinOf ((0 : ℝ), 1) = 0 := by rw [clipMinOf]; norm_num
  have e2 : clipMaxOf ((0 : ℝ), 1) = 255 := by rw [clipMaxOf]; norm_num
  rw [rescaleVal, e1, e2, max_eq_left h0, min_eq_left h255]
  norm_num

/-- On a constant image every sample of the top curve equals
`i + lineOffset(rescale u)` and the bottom curve mirrors it. -/
theorem top_const_value {k : ℝ} {inter : ℕ} {im : List (List ℕ)} {wt wc : ℝ × ℝ}
    {s : ℕ} (u : ℕ) (hu : ∀ row ∈ im, ∀ v ∈ row, v = u)
    {ys : List (List ℝ × List ℝ)} (hy : speckY k inter im wt wc s = some ys)
    {m j : ℕ} (hm : m < ys.length) (hj : j < (ys.getD m ([], [])).1.length) :
    (ys.getD m ([], [])).1.getD j 0 =
      ((m * (s + 1) : ℕ) : ℝ) + lineOffset wt (rescaleVal wc (u : ℝ)) ∧
    (ys.getD m ([], [])).2.getD j 0 =
      2 * ((m * (s + 1) : ℕ) : ℝ) + 1 -
        (((m * (s + 1) : ℕ) : ℝ) + lineOffset wt (rescaleVal wc (u : ℝ))) := by
  obtain ⟨pr, hpr, hgd⟩ := speckY_pair hy hm
  rw [hgd] at hj ⊢
  have hrow : ∀ v ∈ im.getD (m * (s + 1)) [], v = u := by
    intro v hv
    have hlt : m * (s + 1) < im.length := by
      apply mul_lt_of_lt_ceil
      rw [← speckY_length hy]
      exact hm
    exact hu _ (getD_mem im [] hlt) v hv
  obtain ⟨q, hqlt, E, hE, hval⟩ := rowCurves_getD hpr hj
  rw [getD_of_all_eq hrow (by omega), getD_of_all_eq hrow (by omega),
    sub_self, zero_div, add_zero] at hval
  exact ⟨hval, by rw [snd_getD hpr hj, hval]⟩

/-- C3 counterexample: with the all-black 1×2 image, the default weights
`(0, 1)` (inside the claimed domain `0 ≤ a < b ≤ 1`) and clipping `(0, 1)`,
the first sample has `top = 1` and `bottom = 0`, so the claimed
`top(x) < bottom(x)` is false. -/
theorem C3_counterexample :
    ¬ ((((speckY 10 10 [[0, 0]] ((0 : ℝ), 1) ((0 : ℝ), 1) 0).getD []).getD 0
          ([], [])).1.getD 0 0 <
        (((speckY 10 10 [[0, 0]] ((0 : ℝ), 1) ((0 : ℝ), 1) 0).getD []).getD 0
          ([], [])).2.getD 0 0) := by
  have hy : speckY 10 10 [[0, 0]] ((0 : ℝ), 1) ((0 : ℝ), 1) 0 =
      some ((speckY 10 10 [[0, 0]] ((0 : ℝ), 1) ((0 : ℝ), 1) 0).getD []) := rfl
  have hm : 0 < ((speckY 10 10 [[0, 0]] ((0 : ℝ), 1) ((0 : ℝ), 1) 0).getD []).length := by
    decide
  have hj : 0 < (((speckY 10 10 [[0, 0]] ((0 : ℝ), 1) ((0 : ℝ), 1) 0).getD []).getD 0
      ([], [])).1.length := by decide
  have hu : ∀ row ∈ ([[0, 0]] : List (List ℕ)), ∀ v ∈ row, v = 0 := by decide
  obtain ⟨htop, hbot⟩ := top_const_value 0 hu hy hm hj
  have hoff : lineOffset ((0 : ℝ), 1) (rescaleVal ((0 : ℝ), 1) ((0 : ℕ) : ℝ)) = 1 := by
    rw [show ((0 : ℕ) : ℝ) = 0 from by norm_num, rescale_default 0 le_rfl (by norm_num)]
    simp only [lineOffset, yMinOf, yMaxOf]
    norm_num
  rw [htop, hbot, hoff]
  norm_num

/-- C2 counterexample: the claim only assumes `a < b`; at weights
`(-1, 1)`, clipping `(0, 1)` and an all-white image the pixel's rescaled
intensity is 255, the claim then asserts thickness `|bottom - top| = a = -1`,
but the actual thickness is `1`. -/
theorem C2_counterexample :
    rescaleVal ((0 : ℝ), 1) 255 = 255 ∧
    |(((speckY 10 10 [[255, 255]] ((-1 : ℝ), 1) ((0 : ℝ), 1) 0).getD []).getD 0
        ([], [])).2.getD 0 0 -
      (((speckY 10 10 [[255, 255]] ((-1 : ℝ), 1) ((0 : ℝ), 1) 0).getD []).getD 0
        ([], [])).1.getD 0 0| = 1 ∧
    (1 : ℝ) ≠ -1 := by
  refine ⟨rescale_default 255 (by norm_num) le_rfl, ?_, by norm_num⟩
  have hy : speckY 10 10 [[255, 255]] ((-1 : ℝ), 1) ((0 : ℝ), 1) 0 =
      some ((speckY 10 10 [[255, 255]] ((-1 : ℝ), 1) ((0 : ℝ), 1) 0).getD []) := rfl
  have hm : 0 < ((speckY 10 10 [[255, 255]] ((-1 : ℝ), 1) ((0 : ℝ), 1) 0).getD
      []).length := by decide
  have hj : 0 < (((speckY 10 10 [[255, 255]] ((-1 : ℝ), 1) ((0 : ℝ), 1) 0).getD
      []).getD 0 ([], [])).1.length := by decide
  have hu : ∀ row ∈ ([[255, 255]] : List (List ℕ)), ∀ v ∈ row, v = 255 := by decide
  obtain ⟨htop, hbot⟩ := top_const_value 255 hu hy hm hj
  have hoff : lineOffset ((-1 : ℝ), 1) (rescaleVal ((0 : ℝ), 1) ((255 : ℕ) : ℝ)) = 0 := by
    rw [show ((255 : ℕ) : ℝ) = 255 from by norm_num,
      rescale_default 255 (by norm_num) le_rfl]
    simp only [lineOffset, yMinOf, yMaxOf]
    norm_num
  rw [hbot, htop, hoff]
  norm_num

/-- C5 counterexample: for the all-white 1×2 image with the default weights
and clipping, zero noise and skip 0, both curves of the single ribbon equal
`1/2` at the first sample, so the point `y = 1/4` of the vertical extent
`[0, 1]` lies in no ribbon: the claimed full coverage fails. -/
theorem C5_counterexample :
    (0 : ℝ) ≤ 1 / 4 ∧
    (1 / 4 : ℝ) ≤ (([[255, 255]] : List (List ℕ)).length : ℝ) ∧
    ∀ p ∈ (speckY 10 10 [[255, 255]] ((0 : ℝ), 1) ((0 : ℝ), 1) 0).getD [],
      ¬ (min (p.1.getD 0 0) (p.2.getD 0 0) ≤ 1 / 4 ∧
         (1 / 4 : ℝ) ≤ max (p.1.getD 0 0) (p.2.getD 0 0)) := by
  refine ⟨by norm_num, by norm_num, ?_⟩
  have hy : speckY 10 10 [[255, 255]] ((0 : ℝ), 1) ((0 : ℝ), 1) 0 =
      some ((speckY 10 10 [[255, 255]] ((0 : ℝ), 1) ((0 : ℝ), 1) 0).getD []) := rfl
  have hm : 0 < ((speckY 10 10 [[255, 255]] ((0 : ℝ), 1) ((0 : ℝ), 1) 0).getD
      []).length := by decide
  have hj : 0 < (((speckY 10 10 [[255, 255]] ((0 : ℝ), 1) ((0 : ℝ), 1) 0).getD
      []).getD 0 ([], [])).1.length := by decide
  have hu : ∀ row ∈ ([[255, 255]] : List (List ℕ)), ∀ v ∈ row, v = 255 := by decide
  obtain ⟨htop, hbot⟩ := top_const_value 255 hu hy hm hj
  have hoff : lineOffset ((0 : ℝ), 1) (rescaleVal ((0 : ℝ), 1) ((255 : ℕ) : ℝ)) =
      1 / 2 := by
    rw [show ((255 : ℕ) : ℝ) = 255 from by norm_num,
      rescale_default 255 (by norm_num) le_rfl]
    simp only [lineOffset, yMinOf, yMaxOf]
    norm_num
  intro p hp
  have hlen : ((speckY 10 10 [[255, 255]] ((0 : ℝ), 1) ((0 : ℝ), 1) 0).getD
      []).length = 1 := by decide
  obtain ⟨n, hn, hpn⟩ := List.getElem_of_mem hp
  have hn0 : n = 0 := by rw [hlen] at hn; omega
  subst hn0
  have hp0 : p = ((speckY 10 10 [[255, 255]] ((0 : ℝ), 1) ((0 : ℝ), 1) 0).getD
      []).getD 0 ([], []) := by
    rw [List.getD_eq_getElem _ _ hn, hpn]
  rw [hp0, htop, hbot, hoff]
  norm_num

/-- C3 (amended): for weights `(a, b)` with `0 ≤ a < b ≤ 1` and clipping
`(c, d)` with `c < d`, every sample of every pair returned by `_y`
satisfies `bottom(x) ≤ top(x)` — the opposite order to the claim — and the
inequality is strict whenever `0 < a`. -/
theorem C3_top_above_bottom (k : ℝ) (inter : ℕ) (im : List (List ℕ))
    (a b c d : ℝ) (s : ℕ) (ha : 0 ≤ a) (hab : a < b) (hb : b ≤ 1) (hcd : c < d)
    (ys : List (List ℝ × List ℝ)) (hy : speckY k inter im (a, b) (c, d) s = some ys)
    (m j : ℕ) (hm : m < ys.length) (hj : j < (ys.getD m ([], [])).1.length) :
    (ys.getD m ([], [])).2.getD j 0 ≤ (ys.getD m ([], [])).1.getD j 0 ∧
    (0 < a → (ys.getD m ([], [])).2.getD j 0 < (ys.getD m ([], [])).1.getD j 0) := by
  obtain ⟨pr, hpr, hgd⟩ := speckY_pair hy hm
  rw [hgd] at hj ⊢
  have hbound := top_sample_bounds hpr (le_of_lt hab) hcd hj
  have hmin : yMinOf (a, b) = a / 2 + 0.5 := rfl
  rw [hmin] at hbound
  rw [snd_getD hpr hj]
  constructor
  · linarith [hbound.1]
  · intro hapos
    linarith [hbound.1]

/-- Witness for the amended C3 at weights `(1/2, 1)` on a 1×2 image. -/
theorem C3_top_above_bottom_witness :
    (((speckY 10 10 [[0, 0]] ((1 / 2 : ℝ), 1) ((0 : ℝ), 1) 0).getD []).getD 0
        ([], [])).2.getD 0 0 ≤
      (((speckY 10 10 [[0, 0]] ((1 / 2 : ℝ), 1) ((0 : ℝ), 1) 0).getD []).getD 0
        ([], [])).1.getD 0 0 ∧
    (((speckY 10 10 [[0, 0]] ((1 / 2 : ℝ), 1) ((0 : ℝ), 1) 0).getD []).getD 0
        ([], [])).2.getD 0 0 <
      (((speckY 10 10 [[0, 0]] ((1 / 2 : ℝ), 1) ((0 : ℝ), 1) 0).getD []).getD 0
        ([], [])).1.getD 0 0 :=
  ⟨(C3_top_above_bottom 10 10 [[0, 0]] (1 / 2) 1 0 1 0 (by norm_num) (by norm_num)
      (by norm_num) (by norm_num)
      ((speckY 10 10 [[0, 0]] ((1 / 2 : ℝ), 1) ((0 : ℝ), 1) 0).getD []) rfl 0 0
      (by decide) (by decide)).1,
    (C3_top_above_bottom 10 10 [[0, 0]] (1 / 2) 1 0 1 0 (by norm_num) (by norm_num)
      (by norm_num) (by norm_num)
      ((speckY 10 10 [[0, 0]] ((1 / 2 : ℝ), 1) ((0 : ℝ), 1) 0).getD []) rfl 0 0
      (by decide) (by decide)).2 (by norm_num)⟩

/-- C2 (amended): for weights `(a, b)` with `0 ≤ a < b` — the lower bound
must be nonnegative, see the counterexample — and clipping `(c, d)` with
`c < d`, on an image of constant intensity `u` (where the curves are flat)
the ribbon thickness `|bottom - top|` equals `b - r * (b - a) / 255` for
the clipped-and-rescaled intensity `r`: it is `b` at `r = 0`, `a` at
`r = 255`, affine in `r`, and strictly decreasing in `r`. -/
theorem C2_thickness (k : ℝ) (inter : ℕ) (im : List (List ℕ))
    (a b c d : ℝ) (s : ℕ) (u : ℕ) (ha : 0 ≤ a) (hab : a < b) (hcd : c < d)
    (hu : ∀ row ∈ im, ∀ v ∈ row, v = u)
    (ys : List (List ℝ × List ℝ)) (hy : speckY k inter im (a, b) (c, d) s = some ys)
    (m j : ℕ) (hm : m < ys.length) (hj : j < (ys.getD m ([], [])).1.length) :
    |(ys.getD m ([], [])).2.getD j 0 - (ys.getD m ([], [])).1.getD j 0| =
      b - rescaleVal (c, d) (u : ℝ) * (b - a) / 255 ∧
    (∀ r1 r2 : ℝ, r1 < r2 → b - r2 * (b - a) / 255 < b - r1 * (b - a) / 255) ∧
    b - (0 : ℝ) * (b - a) / 255 = b ∧
    b - (255 : ℝ) * (b - a) / 255 = a := by
  obtain ⟨pr, hpr, hgd⟩ := speckY_pair hy hm
  rw [hgd] at hj ⊢
  have hrow : ∀ v ∈ im.getD (m * (s + 1)) [], v = u := by
    intro v hv
    have hlt : m * (s + 1) < im.length := by
      apply mul_lt_of_lt_ceil
      rw [← speckY_length hy]
      exact hm
    exact hu _ (getD_mem im [] hlt) v hv
  obtain ⟨q, hqlt, E, hE, hval⟩ := rowCurves_getD hpr hj
  rw [getD_of_all_eq hrow (by omega), getD_of_all_eq hrow (by omega),
    sub_self, zero_div, add_zero] at hval
  have hr255 : rescaleVal (c, d) (u : ℝ) ≤ 255 := rescaleVal_le hcd _
  have hth : 0 ≤ b - rescaleVal (c, d) (u : ℝ) * (b - a) / 255 := by
    nlinarith [mul_nonneg (by linarith : (0 : ℝ) ≤ 255 - rescaleVal (c, d) (u : ℝ))
      (by linarith : (0 : ℝ) ≤ b - a)]
  refine ⟨?_, ?_, by ring, by ring⟩
  · rw [snd_getD hpr hj, hval]
    have hmirror : 2 * ((m * (s + 1) : ℕ) : ℝ) + 1 -
          (((m * (s + 1) : ℕ) : ℝ) + lineOffset (a, b) (rescaleVal (c, d) (u : ℝ))) -
          (((m * (s + 1) : ℕ) : ℝ) + lineOffset (a, b) (rescaleVal (c, d) (u : ℝ))) =
        -(b - rescaleVal (c, d) (u : ℝ) * (b - a) / 255) := by
      simp only [lineOffset, yMinOf, yMaxOf]
      ring
    rw [hmirror, abs_neg, abs_of_nonneg hth]
  · intro r1 r2 h12
    have h3 : (0 : ℝ) < b - a := by linarith
    have h4 := mul_lt_mul_of_pos_right h12 h3
    linarith

/-- Witness for the amended C2: a constant grey 1×2 image with default
weights and clipping. -/
theorem C2_thickness_witness :
    |(((speckY 10 10 [[100, 100]] ((0 : ℝ), 1) ((0 : ℝ), 1) 0).getD []).getD 0
        ([], [])).2.getD 0 0 -
      (((speckY 10 10 [[100, 100]] ((0 : ℝ), 1) ((0 : ℝ), 1) 0).getD []).getD 0
        ([], [])).1.getD 0 0| =
      1 - rescaleVal ((0 : ℝ), 1) ((100 : ℕ) : ℝ) * (1 - 0) / 255 :=
  (C2_thickness 10 10 [[100, 100]] 0 1 0 1 0 100 (by norm_num) (by norm_num)
    (by norm_num) (by decide)
    ((speckY 10 10 [[100, 100]] ((0 : ℝ), 1) ((0 : ℝ), 1) 0).getD []) rfl 0 0
    (by decide) (by decide)).1

/-- C5 (amended): with zero noise and `skip = 0`, for weights `(a, b)` with
`0 ≤ a ≤ b ≤ 1` and clipping `(c, d)` with `c < d`, the ribbon of row `m`
lies inside the band `[m, m + 1]` (`m ≤ bottom ≤ top ≤ m + 1` at every
sample), so the ribbons of two distinct rows can only meet at a shared band
boundary: a value `y` lying in both ribbons forces the rows to be adjacent
and `y` to be the boundary.  Full coverage of `[0, H]` fails in general
(see the counterexample). -/
theorem C5_bands_no_overlap (k : ℝ) (inter : ℕ) (im : List (List ℕ))
    (a b c d : ℝ) (ha : 0 ≤ a) (hab : a ≤ b) (hb : b ≤ 1) (hcd : c < d)
    (ys : List (List ℝ × List ℝ)) (hy : speckY k inter im (a, b) (c, d) 0 = some ys)
    (m j : ℕ) (hm : m < ys.length) (hj : j < (ys.getD m ([], [])).1.length) :
    ((m : ℝ) ≤ (ys.getD m ([], [])).2.getD j 0 ∧
      (ys.getD m ([], [])).2.getD j 0 ≤ (ys.getD m ([], [])).1.getD j 0 ∧
      (ys.getD m ([], [])).1.getD j 0 ≤ (m : ℝ) + 1) ∧
    ∀ m' j', m < m' → ∀ hm' : m' < ys.length,
      j' < (ys.getD m' ([], [])).1.length → ∀ y : ℝ,
      (ys.getD m ([], [])).2.getD j 0 ≤ y → y ≤ (ys.getD m ([], [])).1.getD j 0 →
      (ys.getD m' ([], [])).2.getD j' 0 ≤ y → y ≤ (ys.getD m' ([], [])).1.getD j' 0 →
      m' = m + 1 ∧ y = (m' : ℝ) := by
  have band : ∀ m0 : ℕ, m0 < ys.length → ∀ j0 : ℕ,
      j0 < (ys.getD m0 ([], [])).1.length →
      ((m0 : ℝ) ≤ (ys.getD m0 ([], [])).2.getD j0 0 ∧
        (ys.getD m0 ([], [])).2.getD j0 0 ≤ (ys.getD m0 ([], [])).1.getD j0 0 ∧
        (ys.getD m0 ([], [])).1.getD j0 0 ≤ (m0 : ℝ) + 1) := by
    intro m0 hm0 j0 hj0
    obtain ⟨pr, hpr, hgd⟩ := speckY_pair hy hm0
    rw [hgd] at hj0 ⊢
    have hbound := top_sample_bounds hpr hab hcd hj0
    have hmin : yMinOf (a, b) = a / 2 + 0.5 := rfl
    have hmax : yMaxOf (a, b) = b / 2 + 0.5 := rfl
    rw [hmin, hmax] at hbound
    have hcast : ((m0 * (0 + 1) : ℕ) : ℝ) = (m0 : ℝ) := by norm_num
    rw [hcast] at hbound
    rw [snd_getD hpr hj0, hcast]
    refine ⟨?_, ?_, ?_⟩
    · linarith [hbound.2]
    · linarith [hbound.1]
    · linarith [hbound.2]
  refine ⟨band m hm j hj, ?_⟩
  intro m' j' hmm' hm' hj' y h1 h2 h3 h4
  have B1 := band m hm j hj
  have B2 := band m' hm' j' hj'
  have hc : (m : ℝ) + 1 ≤ (m' : ℝ) := by exact_mod_cast Nat.succ_le_of_lt hmm'
  have hy1 : y = (m' : ℝ) := by linarith [B1.2.2, B2.1]
  have hy2 : (m' : ℝ) = (m : ℝ) + 1 := by linarith [B1.2.2, B2.1]
  have : m' = m + 1 := by exact_mod_cast hy2
  exact ⟨this, hy1⟩

/-- Witness for the amended C5: a 2-row image, both ribbons in their
bands. -/
theorem C5_bands_no_overlap_witness :
    (((0 : ℕ) : ℝ) ≤ (((speckY 10 10 [[0, 0], [0, 0]] ((0 : ℝ), 1) ((0 : ℝ), 1) 0).getD
        []).getD 0 ([], [])).2.getD 0 0 ∧
      (((speckY 10 10 [[0, 0], [0, 0]] ((0 : ℝ), 1) ((0 : ℝ), 1) 0).getD
        []).getD 0 ([], [])).2.getD 0 0 ≤
        (((speckY 10 10 [[0, 0], [0, 0]] ((0 : ℝ), 1) ((0 : ℝ), 1) 0).getD
          []).getD 0 ([], [])).1.getD 0 0 ∧
      (((speckY 10 10 [[0, 0], [0, 0]] ((0 : ℝ), 1) ((0 : ℝ), 1) 0).getD
        []).getD 0 ([], [])).1.getD 0 0 ≤ (((0 : ℕ) : ℝ)) + 1) :=
  (C5_bands_no_overlap 10 10 [[0, 0], [0, 0]] 0 1 0 1 (by norm_num) (by norm_num)
    (by norm_num) (by norm_num)
    ((speckY 10 10 [[0, 0], [0, 0]] ((0 : ℝ), 1) ((0 : ℝ), 1) 0).getD []) rfl 0 0
    (by decide) (by decide)).1

/-- Witness for C10 at `upscale = 7`. -/
theorem C10_inter_floor_witness :
    interOf 7 = 10 ∧ 10 ≤ interOf 7 ∧
    (sampleX 3 (interOf 7).toNat).length = 3 * (max (7 : ℤ) 10).toNat :=
  ⟨(C10_inter_floor 7 3).2.1 (by norm_num), (C10_inter_floor 7 3).2.2.1,
    (C10_inter_floor 7 3).2.2.2⟩

end Speck
